import Mathlib

/-!
Verification development for the plagiarism-detection service.

Texts are modelled after normalization and whitespace splitting as lists of
words (`List String`); Python floats are modelled as rationals (`ℚ`); Python
sets of words are modelled as `Finset String` via `List.toFinset`; calls to
external systems (the embedder, the vector store) are modelled by explicit
outcome parameters of type `Except String α` (an exception raised by the
client versus a returned value).  `difflib.SequenceMatcher(None, a, b).ratio()`
is an external library function; it is kept abstract as a parameter
`seqFn : String → String → ℚ` together with the hypothesis that it yields
values in `[0, 1]` where a claim needs that.
-/

namespace Plagiarism

/-- Rebuild the normalized text from its word list (inverse of `str.split()`
on a whitespace-normalized string). -/
def joinWords (ws : List String) : String :=
  String.intercalate (" ") ws

/-! ## Chunker — `TextChunker.chunk_text` (src/core/chunker.py, lines 40-103)

The `while word_index < len(words)` loop is embedded structurally: the suffix
`words[word_index:]` is the list argument, and advancing
`word_index += chunk_size - chunk_overlap` becomes dropping
`cs - ov` elements.  A fuel argument (initially `words.length`) makes the
recursion structural; when `ov < cs` the step is positive, so fuel
`words.length` is never exhausted before the suffix is (the source loop
diverges when `chunk_size ≤ chunk_overlap`, a configuration outside every
claim considered here). -/

/-- Loop body of `chunk_text`: `rest` is the remaining word suffix, `b`
records whether `chunks` is nonempty so far (`if chunks: break`). -/
def chunkLoop (cs ov ms : ℕ) : ℕ → List String → Bool → List (List String)
  | 0, _, _ => []
  | _ + 1, [], _ => []
  | fuel + 1, ws@(_ :: _), b =>
    if (ws.take cs).length < ms ∧ b = true then []
    else ws.take cs :: chunkLoop cs ov ms fuel (ws.drop (cs - ov)) true

/-- `TextChunker.chunk_text` on the word list of the normalized text.
Empty text gives no chunks; a text of at most `cs` words gives one chunk
containing all the words; otherwise the sliding-window loop runs. -/
def chunk_text (cs ov ms : ℕ) (words : List String) : List (List String) :=
  if words = [] then []
  else if words.length ≤ cs then [words]
  else chunkLoop cs ov ms words.length words false

/-! ## Lexical scorer (src/core/lexical_matcher.py)

All functions below receive texts already normalized by
`normalize_for_comparison` and split into words.  A nonempty normalized
string has at least one word, so the Python guards `if not text1 ...` become
guards on empty word lists. -/

/-- `jaccard_similarity` (lines 53-64): Jaccard index of the two word sets. -/
def jaccard_similarity (w1 w2 : List String) : ℚ :=
  if w1.toFinset = ∅ ∨ w2.toFinset = ∅ then 0
  else ((w1.toFinset ∩ w2.toFinset).card : ℚ) / ((w1.toFinset ∪ w2.toFinset).card : ℚ)

/-- Word bigrams: `get_ngrams(text, 2)` of `ngram_similarity` (lines 69-73);
`zip` with the tail yields the pairs `(words[i], words[i+1])`, and fewer than
two words yield the empty set. -/
def bigrams (ws : List String) : List (String × String) :=
  ws.zip ws.tail

/-- `ngram_similarity` with `n = 2` (lines 67-84): Jaccard index of bigram
sets. -/
def ngram_similarity (w1 w2 : List String) : ℚ :=
  if (bigrams w1).toFinset = ∅ ∨ (bigrams w2).toFinset = ∅ then 0
  else ((bigrams w1).toFinset ∩ (bigrams w2).toFinset).card
    / (((bigrams w1).toFinset ∪ (bigrams w2).toFinset).card : ℚ)

/-- `calculate_lexical_similarity` (lines 8-30): the symmetric score
`0.3·jaccard + 0.4·sequence + 0.3·ngram`. -/
def calculate_lexical_similarity (seqFn : String → String → ℚ)
    (w1 w2 : List String) : ℚ :=
  if w1 = [] ∨ w2 = [] then 0
  else
    jaccard_similarity w1 w2 * (3 / 10)
      + seqFn (joinWords w1) (joinWords w2) * (4 / 10)
      + ngram_similarity w1 w2 * (3 / 10)

/-- `calculate_asymmetric_lexical_similarity` (lines 105-140): symmetric
comparison when the distinct-word-count ratio exceeds `0.7`, otherwise
`0.6·containment + 0.4·sequence` with containment
`|input_words ∩ matched_words| / |matched_words|`. -/
def calculate_asymmetric_lexical_similarity (seqFn : String → String → ℚ)
    (inputW matchedW : List String) : ℚ :=
  if inputW = [] ∨ matchedW = [] then 0
  else if (7 : ℚ) / 10 < (matchedW.toFinset.card : ℚ) / (inputW.toFinset.card : ℚ) then
    calculate_lexical_similarity seqFn inputW matchedW
  else
    ((inputW.toFinset ∩ matchedW.toFinset).card : ℚ) / (matchedW.toFinset.card : ℚ)
        * (6 / 10)
      + seqFn (joinWords inputW) (joinWords matchedW) * (4 / 10)

/-- `calculate_combined_similarity` (lines 143-181), first component of the
returned pair.  `hasCit` is the value of `has_citation(input_text)`, a
regex predicate on the raw input text kept abstract here. -/
def calculate_combined_similarity (seqFn : String → String → ℚ)
    (hasCit : Bool) (semantic_score : ℚ) (inputW matchedW : List String)
    (semantic_weight lexical_weight : ℚ) : ℚ :=
  max 0 (semantic_score * semantic_weight
    + calculate_asymmetric_lexical_similarity seqFn inputW matchedW * lexical_weight
    - (if hasCit then 15 / 100 else 0))

/-! ## Base percentage — `PlagiarismDetector._calculate_base_percentage`
(src/core/detector.py, lines 273-307)

`chunks` and `chunk_results` are parallel lists (built by the same loop of
`check_plagiarism`); each input chunk is represented by the pair
`(word_count, max_similarity)`. -/

/-- The `plagiarized_weighted` accumulation loop (lines 301-305): chunks at
or above the threshold contribute `word_count * max_similarity`, others 0. -/
def plagiarized_weighted (chunkData : List (ℚ × ℚ)) (threshold : ℚ) : ℚ :=
  (chunkData.map (fun p => if threshold ≤ p.2 then p.1 * p.2 else 0)).sum

/-- `_calculate_base_percentage`: 0 for an empty list or zero total word
count, otherwise `plagiarized_weighted / total_words * 100`. -/
def calculate_base_percentage (chunkData : List (ℚ × ℚ)) (threshold : ℚ) : ℚ :=
  if chunkData = [] then 0
  else if (chunkData.map Prod.fst).sum = 0 then 0
  else plagiarized_weighted chunkData threshold / (chunkData.map Prod.fst).sum * 100

/-! ## Vector search — `ElasticsearchClient` (src/storage/elasticsearch.py)

A raw kNN hit carries the engine score and the `_source` fields read by
`vector_search`.  The outcome of `self.client.search(...)` is modelled as
`Except String (List Hit)`: `Except.error` is an exception raised by the
Elasticsearch client (timeout, server error), `Except.ok` the hit list. -/

/-- One element of `result["hits"]["hits"]` as consumed by `vector_search`. -/
structure Hit where
  score : ℚ
  document_id : String
  chunk_id : String
  document_title : String
  text : String
  position : ℕ
deriving DecidableEq, Repr

/-- The `SearchResult` pydantic model (metadata dict omitted: no claim reads
it). -/
structure SearchResult where
  document_id : String
  chunk_id : String
  document_title : String
  matched_text : String
  similarity_score : ℚ
  position : ℕ
deriving DecidableEq, Repr

/-- The `SearchResult(...)` construction inside `vector_search`. -/
def hitToResult (h : Hit) : SearchResult :=
  ⟨h.document_id, h.chunk_id, h.document_title, h.text, h.score, h.position⟩

/-- Loop of `_limit_results_per_source` (lines 395-408): `counts` is the
`doc_counts` dictionary (a total function defaulting to 0, matching
`doc_counts.get(doc_id, 0)`). -/
def limitGo (maxPer : ℕ) : List SearchResult → (String → ℕ) → List SearchResult
  | [], _ => []
  | r :: rest, counts =>
    if counts r.document_id < maxPer then
      r :: limitGo maxPer rest
        (fun d => if d = r.document_id then counts d + 1 else counts d)
    else limitGo maxPer rest counts

/-- `ElasticsearchClient._limit_results_per_source`. -/
def limit_results_per_source (results : List SearchResult) (maxPer : ℕ) :
    List SearchResult :=
  limitGo maxPer results (fun _ => 0)

/-- `ElasticsearchClient.vector_search` (lines 331-393).  The whole body is
wrapped in `try/except Exception: return []`, so an erroring client call
yields the empty result list; a successful call keeps hits with
`score >= min_score`, converts them and applies the per-source cap. -/
def vector_search (min_score : ℚ) (maxPer : ℕ)
    (outcome : Except String (List Hit)) : List SearchResult :=
  match outcome with
  | Except.error _ => []
  | Except.ok hits =>
      limit_results_per_source
        ((hits.filter (fun h => min_score ≤ h.score)).map hitToResult) maxPer

/-! ## Match deduplication — `PlagiarismDetector._deduplicate_matches`
(src/core/detector.py, lines 343-367) -/

/-- The `PlagiarismMatch` dataclass. -/
structure PlagiarismMatch where
  document_id : String
  document_title : String
  matched_text : String
  input_text : String
  similarity_score : ℚ
  position_start : ℕ
  position_end : ℕ
  chunk_index : ℕ
  matched_chunk_id : String
deriving DecidableEq, Repr

/-- Descending order on combined similarity: `a` may come before `b`.
`sorted(matches, key=lambda x: x.similarity_score, reverse=True)` is the
stable sort by this relation, embedded as `List.insertionSort matchLE`. -/
def matchLE (a b : PlagiarismMatch) : Prop :=
  b.similarity_score ≤ a.similarity_score

instance : DecidableRel matchLE :=
  fun a b => inferInstanceAs (Decidable (b.similarity_score ≤ a.similarity_score))

instance : IsTotal PlagiarismMatch matchLE :=
  ⟨fun a b => le_total b.similarity_score a.similarity_score⟩

instance : IsTrans PlagiarismMatch matchLE :=
  ⟨fun _ _ _ h1 h2 => le_trans h2 h1⟩

/-- The `for match in sorted_matches` loop: `seen` is the set of
`matched_chunk_id` values already kept. -/
def dedupGo : List PlagiarismMatch → List String → List PlagiarismMatch
  | [], _ => []
  | m :: rest, seen =>
    if m.matched_chunk_id ∈ seen then dedupGo rest seen
    else m :: dedupGo rest (m.matched_chunk_id :: seen)

/-- `PlagiarismDetector._deduplicate_matches`: sort by similarity descending
(stably), then keep the first occurrence of each `matched_chunk_id`. -/
def deduplicate_matches (allMatches : List PlagiarismMatch) : List PlagiarismMatch :=
  dedupGo (List.insertionSort matchLE allMatches) []

/-! ## Document upload — `DocumentManager.upload_document`
(src/core/document_manager.py, lines 65-164) -/

/-- The `DocumentChunk` pydantic model (embedding as a rational vector). -/
structure DocumentChunk where
  chunk_id : String
  text : String
  embedding : List ℚ
  position : ℕ
  word_count : ℕ
deriving DecidableEq, Repr

/-- The `UploadResult` dataclass. -/
structure UploadResult where
  document_id : String
  title : String
  chunks_created : ℕ
  success : Bool
  message : String
  error : Option String
deriving DecidableEq, Repr

/-- The `doc_chunks` construction loop of `upload_document` (lines 110-120):
`enumerate(zip(chunks, embeddings))` with chunk id `{doc_id}_chunk_{i}` and
`position = i` (each chunk produced by `chunk_text` has `position` equal to
its index). -/
def buildDocChunks (doc_id : String) (chunks : List (List String))
    (embeddings : List (List ℚ)) : List DocumentChunk :=
  (chunks.zip embeddings).mapIdx
    (fun i p =>
      ⟨doc_id ++ "_chunk_" ++ toString i, joinWords p.1, p.2, i, p.1.length⟩)

/-- `DocumentManager.upload_document`.  `providedId` is the optional
`document_id` argument, `freshId` the `uuid4()` value, `contentWords` the
normalized word list of `content`.  `embedOutcome` is the result of
`self.ollama_client.embed_batch` and `indexOutcome` the result of
`self.es_client.index_document` (`Except.error` models an exception raised
by the dependency, caught by the surrounding `try/except`, which returns the
"Upload failed" result). -/
def upload_document (cs ov ms : ℕ) (providedId : Option String)
    (freshId title : String) (contentWords : List String)
    (embedOutcome : Except String (List (List ℚ)))
    (indexOutcome : Except String Bool) : UploadResult :=
  let doc_id := providedId.getD freshId
  let chunks := chunk_text cs ov ms contentWords
  if chunks = [] then
    ⟨doc_id, title, 0, false, "Document content too short to process", none⟩
  else
    match embedOutcome with
    | Except.error e =>
        ⟨providedId.getD (""), title, 0, false, "Upload failed", some e⟩
    | Except.ok embeddings =>
        let doc_chunks := buildDocChunks doc_id chunks embeddings
        match indexOutcome with
        | Except.error e =>
            ⟨providedId.getD (""), title, 0, false, "Upload failed", some e⟩
        | Except.ok true =>
            ⟨doc_id, title, doc_chunks.length, true,
              "Successfully uploaded with " ++ toString doc_chunks.length
                ++ " chunks", none⟩
        | Except.ok false =>
            ⟨doc_id, title, 0, false, "Failed to index document",
              some ("Elasticsearch indexing failed")⟩

/-! ## Chunker lemmas -/

/-- Every chunk emitted by the loop is a `take cs`, hence has at most `cs`
words. -/
theorem chunkLoop_length_le (cs ov ms fuel : ℕ) :
    ∀ (rest : List String) (b : Bool), ∀ c ∈ chunkLoop cs ov ms fuel rest b,
      c.length ≤ cs := by
  induction fuel with
  | zero => intro rest b c hc; simp [chunkLoop] at hc
  | succ n ih =>
    intro rest b c hc
    cases rest with
    | nil => simp [chunkLoop] at hc
    | cons w t =>
      simp only [chunkLoop] at hc
      split at hc
      · simp at hc
      · rcases List.mem_cons.mp hc with h | h
        · subst h; exact List.length_take_le cs (w :: t)
        · exact ih _ _ c h

/-- Once a chunk has been produced (`b = true`), every further chunk has at
least `ms` words: a shorter window triggers the break. -/
theorem chunkLoop_min_length (cs ov ms fuel : ℕ) :
    ∀ (rest : List String), ∀ c ∈ chunkLoop cs ov ms fuel rest true,
      ms ≤ c.length := by
  induction fuel with
  | zero => intro rest c hc; simp [chunkLoop] at hc
  | succ n ih =>
    intro rest c hc
    cases rest with
    | nil => simp [chunkLoop] at hc
    | cons w t =>
      simp only [chunkLoop] at hc
      split at hc
      · simp at hc
      · rename_i hcond
        simp only [and_true, not_lt] at hcond
        rcases List.mem_cons.mp hc with h | h
        · subst h; exact hcond
        · exact ih _ c h

/-- C6: for all parameter values with `chunk_overlap < chunk_size` and
`min_chunk_size ≤ chunk_size` (the defaults are 50 < 250 and 50 ≤ 250),
every chunk returned by `chunk_text` has a word count of at most
`chunk_size`, and of at least `min_chunk_size` except that a text of at most
`chunk_size` words is returned as the one chunk `words`, which may be
shorter. -/
theorem chunk_text_word_count_bounds (cs ov ms : ℕ) (words : List String)
    (hov : ov < cs) (hms : ms ≤ cs) :
    ∀ c ∈ chunk_text cs ov ms words,
      c.length ≤ cs ∧ (ms ≤ c.length ∨ (words.length ≤ cs ∧ c = words)) := by
  intro c hc
  unfold chunk_text at hc
  split at hc
  · simp at hc
  · split at hc
    · rename_i hshort
      simp only [List.mem_singleton] at hc
      subst hc
      exact ⟨hshort, Or.inr ⟨hshort, rfl⟩⟩
    · rename_i hne hlong
      refine ⟨chunkLoop_length_le cs ov ms words.length words false c hc, Or.inl ?_⟩
      cases words with
      | nil => exact absurd rfl hne
      | cons w t =>
        simp only [List.length_cons, chunkLoop] at hc
        split at hc
        · simp at hc
        · rcases List.mem_cons.mp hc with h | h
          · subst h
            rw [List.length_take]
            push_neg at hlong
            omega
          · exact chunkLoop_min_length cs ov ms t.length _ c h

/-- C6 witness: at `cs = 3`, `ov = 1`, `ms = 2`,
`chunk_text 3 1 2 ["a","b","c","d","e"] = [["a","b","c"],["c","d","e"]]` and
the first chunk satisfies the bounds. -/
theorem chunk_text_word_count_bounds_witness :
    (["a", "b", "c"] : List String).length ≤ 3
      ∧ (2 ≤ (["a", "b", "c"] : List String).length
          ∨ ((["a", "b", "c", "d", "e"] : List String).length ≤ 3
              ∧ (["a", "b", "c"] : List String) = ["a", "b", "c", "d", "e"])) :=
  chunk_text_word_count_bounds 3 1 2 ["a", "b", "c", "d", "e"]
    (by decide) (by decide) ["a", "b", "c"] (by decide)

/-- Shape of the first chunk the loop emits when called with `b = true`:
it is `rest.take cs`, it has at least `ms` words, and `rest` is nonempty. -/
theorem chunkLoop_head (cs ov ms fuel : ℕ) (rest : List String)
    (c : List String) (hc : c ∈ (chunkLoop cs ov ms fuel rest true).head?) :
    c = rest.take cs ∧ ms ≤ c.length ∧ rest ≠ [] := by
  cases fuel with
  | zero => simp [chunkLoop] at hc
  | succ n =>
    cases rest with
    | nil => simp [chunkLoop] at hc
    | cons w t =>
      simp only [chunkLoop] at hc
      split at hc
      · simp at hc
      · rename_i hcond
        simp only [and_true, not_lt] at hcond
        simp only [List.head?_cons, Option.mem_some_iff] at hc
        subst hc
        exact ⟨rfl, hcond, by simp⟩

/-- Consecutive-chunk relation produced by the sliding window: the leading
chunk is a full window of `cs` words whose last `ov` words are the first
`ov` words of its successor. -/
theorem chunkLoop_overlap_chain (cs ov ms : ℕ) (hov : ov < cs) (hms : ov ≤ ms)
    (fuel : ℕ) :
    ∀ (rest : List String) (b : Bool),
      List.Chain' (fun c1 c2 => c1.length = cs ∧ ov ≤ c2.length
        ∧ c1.drop (c1.length - ov) = c2.take ov)
        (chunkLoop cs ov ms fuel rest b) := by
  induction fuel with
  | zero => intro rest b; simp [chunkLoop]
  | succ n ih =>
    intro rest b
    cases rest with
    | nil => simp [chunkLoop]
    | cons w t =>
      simp only [chunkLoop]
      split
      · simp
      · refine List.chain'_cons'.mpr ⟨?_, ih _ true⟩
        intro c hc
        obtain ⟨hceq, hcms, hcne⟩ := chunkLoop_head cs ov ms n _ c hc
        have hrest' : ((w :: t).drop (cs - ov)).length = (w :: t).length - (cs - ov) :=
          List.length_drop (cs - ov) (w :: t)
        have hclen : c.length = min cs ((w :: t).drop (cs - ov)).length := by
          rw [hceq, List.length_take]
        have hrlong : cs ≤ (w :: t).length := by
          have h1 : 0 < ((w :: t).drop (cs - ov)).length :=
            List.length_pos.mpr hcne
          have h2 : ms ≤ min cs ((w :: t).drop (cs - ov)).length := by
            rw [← hclen]; exact hcms
          omega
        have hfull : ((w :: t).take cs).length = cs := by
          rw [List.length_take]; omega
        refine ⟨hfull, le_trans hms hcms, ?_⟩
        rw [hfull, List.drop_take cs (cs - ov) (w :: t), hceq,
          List.take_take]
        congr 1
        omega

/-- C7: whenever `chunk_overlap < chunk_size` and
`chunk_overlap ≤ min_chunk_size` (the defaults are 50 < 250 and 50 ≤ 50),
each pair of consecutive chunks returned by `chunk_text` overlaps by exactly
`ov` words: every non-final chunk is a full window of `cs` words and its
last `ov` words equal the first `ov` words of the next chunk. -/
theorem chunk_text_overlap_chain (cs ov ms : ℕ) (words : List String)
    (hov : ov < cs) (hms : ov ≤ ms) :
    List.Chain' (fun c1 c2 => c1.length = cs ∧ ov ≤ c2.length
      ∧ c1.drop (c1.length - ov) = c2.take ov)
      (chunk_text cs ov ms words) := by
  unfold chunk_text
  split
  · simp
  · split
    · simp
    · exact chunkLoop_overlap_chain cs ov ms hov hms words.length words false

/-- C7 witness: `chunk_text 3 1 1 ["a","b","c","d","e"]` is
`[["a","b","c"],["c","d","e"],["e"]]` and consecutive chunks overlap by one
word. -/
theorem chunk_text_overlap_chain_witness :
    List.Chain' (fun c1 c2 => c1.length = 3 ∧ 1 ≤ c2.length
      ∧ c1.drop (c1.length - 1) = c2.take 1)
      (chunk_text 3 1 1 ["a", "b", "c", "d", "e"]) :=
  chunk_text_overlap_chain 3 1 1 ["a", "b", "c", "d", "e"]
    (by decide) (by decide)

/-- Coverage of the loop: with `ms ≤ ov < cs` and enough fuel, every word of
the remaining suffix lands in some emitted chunk, unless the loop breaks
immediately (`b = true` and fewer than `ms` words remain). -/
theorem chunkLoop_coverage (cs ov ms : ℕ) (hms : ms ≤ ov) (hov : ov < cs)
    (fuel : ℕ) :
    ∀ (rest : List String) (b : Bool), rest.length ≤ fuel →
      ∀ i (h : i < rest.length),
        (∃ c ∈ chunkLoop cs ov ms fuel rest b, rest.get ⟨i, h⟩ ∈ c)
          ∨ (b = true ∧ rest.length < ms) := by
  induction fuel with
  | zero =>
    intro rest b hfuel i h
    omega
  | succ n ih =>
    intro rest b hfuel i h
    cases rest with
    | nil => simp at h
    | cons w t =>
      simp only [chunkLoop]
      split
      · rename_i hcond
        right
        have hlen : ((w :: t).take cs).length = min cs (w :: t).length :=
          List.length_take cs (w :: t)
        exact ⟨hcond.2, by omega⟩
      · left
        by_cases hi : i < cs
        · refine ⟨(w :: t).take cs, List.mem_cons_self _ _, ?_⟩
          have hlt : i < ((w :: t).take cs).length := by
            rw [List.length_take]; omega
          have : ((w :: t).take cs).get ⟨i, hlt⟩ = (w :: t).get ⟨i, h⟩ := by
            simp [List.getElem_take]
          rw [← this]
          exact List.get_mem _ _ _
        · have hstep : 0 < cs - ov := by omega
          have hlen' : ((w :: t).drop (cs - ov)).length = (w :: t).length - (cs - ov) :=
            List.length_drop (cs - ov) (w :: t)
          have hfuel' : ((w :: t).drop (cs - ov)).length ≤ n := by omega
          have hi' : i - (cs - ov) < ((w :: t).drop (cs - ov)).length := by omega
          rcases ih _ true hfuel' (i - (cs - ov)) hi' with ⟨c, hcL, hmem⟩ | ⟨_, hsmall⟩
          · refine ⟨c, List.mem_cons_of_mem _ hcL, ?_⟩
            have : ((w :: t).drop (cs - ov)).get ⟨i - (cs - ov), hi'⟩
                = (w :: t).get ⟨i, h⟩ := by
              simp only [List.get_eq_getElem, List.getElem_drop]
              congr 1
              omega
            rw [← this]
            exact hmem
          · omega

/-- C9: when `min_chunk_size ≤ chunk_overlap < chunk_size` (the defaults are
50 ≤ 50 < 250), `chunk_text` loses no words: every word of the normalized
input occurs in at least one returned chunk.  A final window of fewer than
`min_chunk_size ≤ overlap` words is dropped only when the previous full
window already covers its word range. -/
theorem chunk_text_no_word_lost (cs ov ms : ℕ) (words : List String)
    (hms : ms ≤ ov) (hov : ov < cs) :
    ∀ i (h : i < words.length),
      ∃ c ∈ chunk_text cs ov ms words, words.get ⟨i, h⟩ ∈ c := by
  intro i h
  unfold chunk_text
  split
  · rename_i hnil
    rw [hnil] at h
    simp at h
  · split
    · exact ⟨words, List.mem_singleton_self words, List.get_mem _ _ _⟩
    · rcases chunkLoop_coverage cs ov ms hms hov words.length words false
          (le_refl _) i h with ⟨c, hc, hmem⟩ | ⟨hb, _⟩
      · exact ⟨c, hc, hmem⟩
      · exact absurd hb (by simp)

/-- C9 witness: in `chunk_text 3 1 1 ["a","b","c","d","e"]` the word at
index 4 (the final word, part of a dropped-size-range window) still occurs
in a returned chunk. -/
theorem chunk_text_no_word_lost_witness :
    ∃ c ∈ chunk_text 3 1 1 ["a", "b", "c", "d", "e"], ("e" : String) ∈ c :=
  chunk_text_no_word_lost 3 1 1 ["a", "b", "c", "d", "e"]
    (by decide) (by decide) 4 (by decide)

/-! ## Per-source cap lemmas -/

/-- The capping loop keeps results in their original order: its output is a
sublist of its input. -/
theorem limitGo_sublist (maxPer : ℕ) (l : List SearchResult) :
    ∀ counts, List.Sublist (limitGo maxPer l counts) l := by
  induction l with
  | nil => intro counts; simp [limitGo]
  | cons r rest ih =>
    intro counts
    simp only [limitGo]
    split
    · exact List.Sublist.cons₂ r (ih _)
    · exact List.Sublist.cons r (ih _)

/-- Per document, the capping loop keeps exactly the first
`maxPer - counts d` occurrences. -/
theorem limitGo_filter (maxPer : ℕ) (d : String) (l : List SearchResult) :
    ∀ counts,
      (limitGo maxPer l counts).filter (fun r => r.document_id = d)
        = (l.filter (fun r => r.document_id = d)).take (maxPer - counts d) := by
  induction l with
  | nil => intro counts; simp [limitGo]
  | cons r rest ih =>
    intro counts
    simp only [limitGo]
    by_cases hd : r.document_id = d
    · have hcd : counts d = counts r.document_id := by rw [hd]
      by_cases hcnt : counts r.document_id < maxPer
      · rw [if_pos hcnt, List.filter_cons_of_pos (by simp [hd]),
          List.filter_cons_of_pos (by simp [hd]), ih,
          if_pos (show d = r.document_id from hd.symm)]
        have hsucc : maxPer - counts d = (maxPer - (counts d + 1)) + 1 := by omega
        rw [hsucc, List.take_succ_cons]
      · rw [if_neg hcnt, ih, List.filter_cons_of_pos (by simp [hd])]
        have h0 : maxPer - counts d = 0 := by omega
        rw [h0]
        simp
    · by_cases hcnt : counts r.document_id < maxPer
      · rw [if_pos hcnt, List.filter_cons_of_neg (by simp [hd]),
          List.filter_cons_of_neg (by simp [hd]), ih,
          if_neg (show ¬d = r.document_id from fun h => hd h.symm)]
      · rw [if_neg hcnt, ih, List.filter_cons_of_neg (by simp [hd])]

/-- C4: `_limit_results_per_source` keeps results in their original order (a
sublist of the input), keeps for each document id exactly the first
`maxResultsPerSource` of its occurrences (which are the highest-scoring ones
when the input is sorted by score descending), and hence no document id
occurs more than `maxResultsPerSource` times in the output. -/
theorem limit_results_per_source_spec (results : List SearchResult) (maxPer : ℕ) :
    List.Sublist (limit_results_per_source results maxPer) results
    ∧ ∀ d : String,
        ((limit_results_per_source results maxPer).filter
            (fun r => r.document_id = d)
          = (results.filter (fun r => r.document_id = d)).take maxPer)
        ∧ ((limit_results_per_source results maxPer).filter
            (fun r => r.document_id = d)).length ≤ maxPer := by
  unfold limit_results_per_source
  refine ⟨limitGo_sublist maxPer results _, fun d => ?_⟩
  have h := limitGo_filter maxPer d results (fun _ => 0)
  simp only [Nat.sub_zero] at h
  exact ⟨h, by rw [h]; exact List.length_take_le maxPer _⟩

/-! ## Vector search error behavior -/

/-- Counterexample to C8: an erroring vector-store call is indistinguishable
from a successful search with no hits — `vector_search` returns the same
normally-shaped empty result list in both cases (the `try/except` at
src/storage/elasticsearch.py lines 391-393 returns `[]`), so the failure is
not surfaced to `check_plagiarism` or to the RPC layer. -/
theorem vector_search_error_counterexample :
    vector_search (1 / 2) 3 (Except.error ("connection timeout"))
      = vector_search (1 / 2) 3 (Except.ok []) := rfl

/-- C8 amended: when the vector store raises an error during a per-chunk
kNN search, `vector_search` catches it and returns the empty result list,
so the check proceeds and produces a normally-shaped `CheckResult`; the
failure is not surfaced as an RPC internal error. -/
theorem vector_search_error_absorbed (e : String) (min_score : ℚ)
    (maxPer : ℕ) :
    vector_search min_score maxPer (Except.error e) = [] := rfl

/-! ## Deduplication lemmas -/

/-- The dedup loop keeps matches in the order of its (sorted) input. -/
theorem dedupGo_sublist (l : List PlagiarismMatch) :
    ∀ seen, List.Sublist (dedupGo l seen) l := by
  induction l with
  | nil => intro seen; simp [dedupGo]
  | cons a rest ih =>
    intro seen
    simp only [dedupGo]
    split
    · exact List.Sublist.cons a (ih _)
    · exact List.Sublist.cons₂ a (ih _)

/-- No match whose chunk id is already in `seen` survives the dedup loop. -/
theorem mem_dedupGo_not_seen (l : List PlagiarismMatch) :
    ∀ seen m, m ∈ dedupGo l seen → m.matched_chunk_id ∉ seen := by
  induction l with
  | nil => intro seen m hm; simp [dedupGo] at hm
  | cons a rest ih =>
    intro seen m hm
    simp only [dedupGo] at hm
    split at hm
    · exact ih _ _ hm
    · rename_i hnot
      rcases List.mem_cons.mp hm with h | h
      · subst h; exact hnot
      · intro hc
        exact ih _ _ h (List.mem_cons_of_mem _ hc)

/-- Distinct kept matches have distinct `matched_chunk_id`. -/
theorem dedupGo_ids_pairwise (l : List PlagiarismMatch) :
    ∀ seen, (dedupGo l seen).Pairwise
      (fun a b => a.matched_chunk_id ≠ b.matched_chunk_id) := by
  induction l with
  | nil => intro seen; simp [dedupGo]
  | cons a rest ih =>
    intro seen
    simp only [dedupGo]
    split
    · exact ih _
    · refine List.Pairwise.cons ?_ (ih _)
      intro b hb heq
      exact mem_dedupGo_not_seen rest _ b hb
        (by rw [← heq]; exact List.mem_cons_self _ _)

/-- On a list sorted by similarity descending, every kept match dominates all
the matches of the list that carry the same chunk id. -/
theorem dedupGo_max (l : List PlagiarismMatch) (hs : l.Pairwise matchLE) :
    ∀ seen m, m ∈ dedupGo l seen →
      ∀ m2 ∈ l, m2.matched_chunk_id = m.matched_chunk_id →
        m2.similarity_score ≤ m.similarity_score := by
  induction l with
  | nil => intro seen m hm; simp [dedupGo] at hm
  | cons a rest ih =>
    have hrest : rest.Pairwise matchLE := List.Pairwise.of_cons hs
    have ha : ∀ x ∈ rest, matchLE a x := fun x hx => List.rel_of_pairwise_cons hs hx
    intro seen m hm m2 hm2 hid
    simp only [dedupGo] at hm
    split at hm
    · rename_i hseen
      have hnot := mem_dedupGo_not_seen rest seen m hm
      rcases List.mem_cons.mp hm2 with h | h
      · subst h
        exact absurd (hid ▸ hseen) hnot
      · exact ih hrest seen m hm m2 h hid
    · rcases List.mem_cons.mp hm with h | h
      · subst h
        rcases List.mem_cons.mp hm2 with h2 | h2
        · subst h2; exact le_refl _
        · exact ha m2 h2
      · have hnot := mem_dedupGo_not_seen rest _ m h
        rcases List.mem_cons.mp hm2 with h2 | h2
        · subst h2
          exact absurd (hid ▸ List.mem_cons_self _ _) hnot
        · exact ih hrest _ m h m2 h2 hid

/-- Every chunk id of the input has a representative in the dedup output. -/
theorem dedupGo_coverage (l : List PlagiarismMatch) :
    ∀ seen m2, m2 ∈ l →
      m2.matched_chunk_id ∈ seen
        ∨ ∃ m ∈ dedupGo l seen, m.matched_chunk_id = m2.matched_chunk_id := by
  induction l with
  | nil => intro seen m2 hm2; simp at hm2
  | cons a rest ih =>
    intro seen m2 hm2
    simp only [dedupGo]
    rcases List.mem_cons.mp hm2 with h | h
    · subst h
      by_cases hseen : m2.matched_chunk_id ∈ seen
      · exact Or.inl hseen
      · rw [if_neg hseen]
        exact Or.inr ⟨m2, List.mem_cons_self _ _, rfl⟩
    · by_cases hseen : a.matched_chunk_id ∈ seen
      · rw [if_pos hseen]
        exact ih seen m2 h
      · rw [if_neg hseen]
        rcases ih (a.matched_chunk_id :: seen) m2 h with hin | ⟨m, hm, hid⟩
        · rcases List.mem_cons.mp hin with h2 | h2
          · exact Or.inr ⟨a, List.mem_cons_self _ _, h2.symm⟩
          · exact Or.inl h2
        · exact Or.inr ⟨m, List.mem_cons_of_mem _ hm, hid⟩

/-- C5: `_deduplicate_matches` returns a list sorted by combined similarity
descending in which no two matches share a `matched_chunk_id`; every kept
match comes from the input and carries the maximum combined similarity among
all input matches with its chunk id; and every input chunk id is still
represented. -/
theorem deduplicate_matches_spec (allMatches : List PlagiarismMatch) :
    (deduplicate_matches allMatches).Pairwise
        (fun a b => b.similarity_score ≤ a.similarity_score)
    ∧ (deduplicate_matches allMatches).Pairwise
        (fun a b => a.matched_chunk_id ≠ b.matched_chunk_id)
    ∧ (∀ m ∈ deduplicate_matches allMatches, m ∈ allMatches ∧
        ∀ m2 ∈ allMatches, m2.matched_chunk_id = m.matched_chunk_id →
          m2.similarity_score ≤ m.similarity_score)
    ∧ ∀ m2 ∈ allMatches, ∃ m ∈ deduplicate_matches allMatches,
        m.matched_chunk_id = m2.matched_chunk_id := by
  have hsort : (List.insertionSort matchLE allMatches).Pairwise matchLE :=
    List.sorted_insertionSort matchLE allMatches
  have hperm := List.perm_insertionSort matchLE allMatches
  refine ⟨?_, dedupGo_ids_pairwise _ _, ?_, ?_⟩
  · exact hsort.sublist (dedupGo_sublist _ [])
  · intro m hm
    refine ⟨hperm.mem_iff.mp ((dedupGo_sublist _ []).subset hm), ?_⟩
    intro m2 hm2 hid
    exact dedupGo_max _ hsort [] m hm m2 (hperm.mem_iff.mpr hm2) hid
  · intro m2 hm2
    rcases dedupGo_coverage _ [] m2 (hperm.mem_iff.mpr hm2) with h | h
    · simp at h
    · exact h

/-! ## Base percentage lemmas -/

/-- A sum of positives over a nonempty list is positive. -/
theorem list_sum_pos (l : List ℚ) (h : ∀ x ∈ l, 0 < x) (hne : l ≠ []) :
    0 < l.sum := by
  cases l with
  | nil => exact absurd rfl hne
  | cons a t =>
    rw [List.sum_cons]
    have ha : 0 < a := h a (List.mem_cons_self a t)
    have ht : 0 ≤ t.sum :=
      List.sum_nonneg (fun x hx => le_of_lt (h x (List.mem_cons_of_mem a hx)))
    linarith

/-- A sum of nonnegatives is zero exactly when every element is zero. -/
theorem list_sum_nonneg_eq_zero_iff (l : List ℚ) (h : ∀ x ∈ l, 0 ≤ x) :
    l.sum = 0 ↔ ∀ x ∈ l, x = 0 := by
  induction l with
  | nil => simp
  | cons a t ih =>
    rw [List.sum_cons]
    have ha : 0 ≤ a := h a (List.mem_cons_self a t)
    have ht : 0 ≤ t.sum :=
      List.sum_nonneg (fun x hx => h x (List.mem_cons_of_mem a hx))
    constructor
    · intro h0
      have ha0 : a = 0 := by linarith
      have ht0 : t.sum = 0 := by linarith
      intro x hx
      rcases List.mem_cons.mp hx with h2 | h2
      · rw [h2]; exact ha0
      · exact (ih (fun x hx => h x (List.mem_cons_of_mem a hx))).mp ht0 x h2
    · intro hall
      have ha0 : a = 0 := hall a (List.mem_cons_self a t)
      have ht0 : t.sum = 0 :=
        (ih (fun x hx => h x (List.mem_cons_of_mem a hx))).mpr
          (fun x hx => hall x (List.mem_cons_of_mem a hx))
      rw [ha0, ht0, add_zero]

/-- The thresholded-sum loop equals the filter-then-sum formulation of the
specification. -/
theorem plagiarized_weighted_eq_filter (l : List (ℚ × ℚ)) (threshold : ℚ) :
    plagiarized_weighted l threshold
      = ((l.filter (fun p => threshold ≤ p.2)).map (fun p => p.1 * p.2)).sum := by
  induction l with
  | nil => simp [plagiarized_weighted]
  | cons a t ih =>
    simp only [plagiarized_weighted] at ih ⊢
    by_cases h : threshold ≤ a.2
    · simp [List.filter_cons, h, ih]
    · simp [List.filter_cons, h, ih]

/-- C1: with positive per-chunk word counts and max combined similarities in
`[0, 1]`, the base percentage equals
`100 · (Σ over chunks with m ≥ threshold of w · m) / (Σ w)`, lies in
`[0, 100]`, and is `0` exactly when no chunk reaches the threshold. -/
theorem calculate_base_percentage_spec (chunkData : List (ℚ × ℚ))
    (threshold : ℚ) (hne : chunkData ≠ []) (hθ : 0 < threshold)
    (hw : ∀ p ∈ chunkData, 0 < p.1)
    (hm : ∀ p ∈ chunkData, 0 ≤ p.2 ∧ p.2 ≤ 1) :
    calculate_base_percentage chunkData threshold
        = ((chunkData.filter (fun p => threshold ≤ p.2)).map
            (fun p => p.1 * p.2)).sum / (chunkData.map Prod.fst).sum * 100
    ∧ 0 ≤ calculate_base_percentage chunkData threshold
    ∧ calculate_base_percentage chunkData threshold ≤ 100
    ∧ (calculate_base_percentage chunkData threshold = 0
        ↔ ∀ p ∈ chunkData, p.2 < threshold) := by
  have htot : 0 < (chunkData.map Prod.fst).sum := by
    refine list_sum_pos _ ?_ (by simpa using hne)
    intro x hx
    rcases List.mem_map.mp hx with ⟨p, hp, rfl⟩
    exact hw p hp
  have hterm : ∀ x ∈ chunkData.map
      (fun p => if threshold ≤ p.2 then p.1 * p.2 else 0), 0 ≤ x := by
    intro x hx
    rcases List.mem_map.mp hx with ⟨p, hp, rfl⟩
    split
    · exact mul_nonneg (le_of_lt (hw p hp)) (hm p hp).1
    · exact le_refl 0
  have hpw0 : 0 ≤ plagiarized_weighted chunkData threshold :=
    List.sum_nonneg hterm
  have hpwle : plagiarized_weighted chunkData threshold
      ≤ (chunkData.map Prod.fst).sum := by
    refine List.sum_le_sum ?_
    intro p hp
    split
    · calc p.1 * p.2 ≤ p.1 * 1 :=
          mul_le_mul_of_nonneg_left (hm p hp).2 (le_of_lt (hw p hp))
        _ = p.1 := mul_one p.1
    · exact le_of_lt (hw p hp)
  have hval : calculate_base_percentage chunkData threshold
      = plagiarized_weighted chunkData threshold
          / (chunkData.map Prod.fst).sum * 100 := by
    unfold calculate_base_percentage
    rw [if_neg hne, if_neg (ne_of_gt htot)]
  refine ⟨?_, ?_, ?_, ?_⟩
  · rw [hval, plagiarized_weighted_eq_filter]
  · rw [hval]
    have := div_nonneg hpw0 (le_of_lt htot)
    linarith
  · rw [hval]
    have : plagiarized_weighted chunkData threshold
        / (chunkData.map Prod.fst).sum ≤ 1 := (div_le_one htot).mpr hpwle
    linarith
  · rw [hval]
    constructor
    · intro h0
      have hpw : plagiarized_weighted chunkData threshold = 0 := by
        rcases mul_eq_zero.mp h0 with h1 | h1
        · rcases div_eq_zero_iff.mp h1 with h2 | h2
          · exact h2
          · exact absurd h2 (ne_of_gt htot)
        · norm_num at h1
      have hall := (list_sum_nonneg_eq_zero_iff _ hterm).mp hpw
      intro p hp
      by_contra hge
      push_neg at hge
      have h1 := hall _ (List.mem_map_of_mem _ hp)
      rw [if_pos hge] at h1
      have : 0 < p.1 * p.2 :=
        mul_pos (hw p hp) (lt_of_lt_of_le hθ hge)
      linarith
    · intro hall
      have : plagiarized_weighted chunkData threshold = 0 := by
        unfold plagiarized_weighted
        refine (list_sum_nonneg_eq_zero_iff _ hterm).mpr ?_
        intro x hx
        rcases List.mem_map.mp hx with ⟨p, hp, rfl⟩
        rw [if_neg (not_le.mpr (hall p hp))]
      rw [this, zero_div, zero_mul]

/-- C1 witness: two chunks `(word_count, max_similarity) = (10, 9/10)` and
`(5, 1/10)` at threshold `1/2` give percentage `(10 · 9/10) / 15 · 100 = 60`,
within bounds. -/
theorem calculate_base_percentage_spec_witness :
    calculate_base_percentage [((1 : ℚ), 1), (1, 0)] 1 ≤ 100 :=
  (calculate_base_percentage_spec [((1 : ℚ), 1), (1, 0)] 1
    (by simp) (by simp) (by simp) (by simp)).2.2.1

/-! ## Lexical scorer lemmas -/

/-- A ratio `|A ∩ B| / |A ∪ B|` of finite-set cardinalities lies in `[0, 1]`
when `A` is nonempty. -/
theorem inter_union_card_ratio_bounds {α : Type} [DecidableEq α]
    (A B : Finset α) (hA : A ≠ ∅) :
    0 ≤ ((A ∩ B).card : ℚ) / ((A ∪ B).card : ℚ)
      ∧ ((A ∩ B).card : ℚ) / ((A ∪ B).card : ℚ) ≤ 1 := by
  have hpos : 0 < ((A ∪ B).card : ℚ) := by
    have : 0 < (A ∪ B).card :=
      Finset.card_pos.mpr ((Finset.nonempty_iff_ne_empty.mpr hA).mono
        Finset.subset_union_left)
    exact_mod_cast this
  constructor
  · exact div_nonneg (by exact_mod_cast Nat.zero_le _) (le_of_lt hpos)
  · refine (div_le_one hpos).mpr ?_
    exact_mod_cast Finset.card_le_card (Finset.inter_subset_union)

/-- `jaccard_similarity` always lies in `[0, 1]`. -/
theorem jaccard_similarity_bounds (w1 w2 : List String) :
    0 ≤ jaccard_similarity w1 w2 ∧ jaccard_similarity w1 w2 ≤ 1 := by
  unfold jaccard_similarity
  split
  · norm_num
  · rename_i hne
    push_neg at hne
    exact inter_union_card_ratio_bounds _ _ hne.1

/-- `ngram_similarity` always lies in `[0, 1]`. -/
theorem ngram_similarity_bounds (w1 w2 : List String) :
    0 ≤ ngram_similarity w1 w2 ∧ ngram_similarity w1 w2 ≤ 1 := by
  unfold ngram_similarity
  split
  · norm_num
  · rename_i hne
    push_neg at hne
    exact inter_union_card_ratio_bounds _ _ hne.1

/-- The symmetric lexical score lies in `[0, 1]` whenever the sequence ratio
does. -/
theorem calculate_lexical_similarity_bounds (seqFn : String → String → ℚ)
    (hseq : ∀ a b, 0 ≤ seqFn a b ∧ seqFn a b ≤ 1) (w1 w2 : List String) :
    0 ≤ calculate_lexical_similarity seqFn w1 w2
      ∧ calculate_lexical_similarity seqFn w1 w2 ≤ 1 := by
  unfold calculate_lexical_similarity
  split
  · norm_num
  · have hj := jaccard_similarity_bounds w1 w2
    have hn := ngram_similarity_bounds w1 w2
    have hs := hseq (joinWords w1) (joinWords w2)
    constructor
    · nlinarith [hj.1, hn.1, hs.1]
    · nlinarith [hj.2, hn.2, hs.2]

/-- The asymmetric lexical score lies in `[0, 1]` whenever the sequence
ratio does. -/
theorem calculate_asymmetric_lexical_similarity_bounds
    (seqFn : String → String → ℚ)
    (hseq : ∀ a b, 0 ≤ seqFn a b ∧ seqFn a b ≤ 1)
    (inputW matchedW : List String) :
    0 ≤ calculate_asymmetric_lexical_similarity seqFn inputW matchedW
      ∧ calculate_asymmetric_lexical_similarity seqFn inputW matchedW ≤ 1 := by
  unfold calculate_asymmetric_lexical_similarity
  split
  · norm_num
  · rename_i hne
    push_neg at hne
    split
    · exact calculate_lexical_similarity_bounds seqFn hseq inputW matchedW
    · have hmne : matchedW.toFinset ≠ ∅ := by
        simpa [List.toFinset_eq_empty_iff] using hne.2
      have hpos : 0 < (matchedW.toFinset.card : ℚ) := by
        have : 0 < matchedW.toFinset.card :=
          Finset.card_pos.mpr (Finset.nonempty_iff_ne_empty.mpr hmne)
        exact_mod_cast this
      have hc0 : 0 ≤ ((inputW.toFinset ∩ matchedW.toFinset).card : ℚ)
          / (matchedW.toFinset.card : ℚ) :=
        div_nonneg (by exact_mod_cast Nat.zero_le _) (le_of_lt hpos)
      have hc1 : ((inputW.toFinset ∩ matchedW.toFinset).card : ℚ)
          / (matchedW.toFinset.card : ℚ) ≤ 1 := by
        refine (div_le_one hpos).mpr ?_
        exact_mod_cast Finset.card_le_card (Finset.inter_subset_right)
      have hs := hseq (joinWords inputW) (joinWords matchedW)
      constructor
      · nlinarith [hs.1]
      · nlinarith [hs.2]

/-- C2: for nonempty normalized texts, the asymmetric lexical similarity is
the symmetric score `0.3·Jaccard + 0.4·SequenceRatio + 0.3·NgramJaccard`
when the ratio `|matched| / |input|` of distinct-word counts exceeds `0.7`,
and `0.6·containment + 0.4·SequenceRatio` otherwise, where containment is
the fraction of distinct matched-text words that also occur in the input. -/
theorem calculate_asymmetric_lexical_similarity_spec
    (seqFn : String → String → ℚ) (inputW matchedW : List String)
    (hi : inputW ≠ []) (hm : matchedW ≠ []) :
    ((7 : ℚ) / 10 < (matchedW.toFinset.card : ℚ) / (inputW.toFinset.card : ℚ) →
      calculate_asymmetric_lexical_similarity seqFn inputW matchedW
        = jaccard_similarity inputW matchedW * (3 / 10)
          + seqFn (joinWords inputW) (joinWords matchedW) * (4 / 10)
          + ngram_similarity inputW matchedW * (3 / 10))
    ∧ ((matchedW.toFinset.card : ℚ) / (inputW.toFinset.card : ℚ) ≤ 7 / 10 →
      calculate_asymmetric_lexical_similarity seqFn inputW matchedW
        = ((matchedW.toFinset.filter (fun w => w ∈ inputW)).card : ℚ)
              / (matchedW.toFinset.card : ℚ) * (6 / 10)
          + seqFn (joinWords inputW) (joinWords matchedW) * (4 / 10)) := by
  have hguard : ¬(inputW = [] ∨ matchedW = []) := by simp [hi, hm]
  have hcont : (matchedW.toFinset.filter (fun w => w ∈ inputW)).card
      = (inputW.toFinset ∩ matchedW.toFinset).card := by
    rw [Finset.inter_comm]
    congr 1
    rw [← Finset.filter_mem_eq_inter]
    refine Finset.filter_congr ?_
    intro x _
    simp [List.mem_toFinset]
  constructor
  · intro hgt
    unfold calculate_asymmetric_lexical_similarity calculate_lexical_similarity
    rw [if_neg hguard, if_pos hgt, if_neg hguard]
  · intro hle
    unfold calculate_asymmetric_lexical_similarity
    rw [if_neg hguard, if_neg (not_lt.mpr hle), hcont]

/-- C2 witness: input `["a"]`, matched `["a"]`; the distinct-word ratio is
`1 > 0.7`, so the symmetric branch applies. -/
theorem calculate_asymmetric_lexical_similarity_spec_witness :
    calculate_asymmetric_lexical_similarity (fun _ _ => 0) ["a"] ["a"]
      = jaccard_similarity ["a"] ["a"] * (3 / 10)
        + (fun _ _ => (0 : ℚ)) (joinWords ["a"]) (joinWords ["a"]) * (4 / 10)
        + ngram_similarity ["a"] ["a"] * (3 / 10) :=
  (calculate_asymmetric_lexical_similarity_spec (fun _ _ => 0)
    ["a"] ["a"] (by simp) (by simp)).1
    (by norm_num [List.toFinset_cons, List.toFinset_nil])

/-- C3: with the default weights `1/2` and `1/2`, a semantic score in
`[0, 1]` and a sequence ratio in `[0, 1]`, the combined similarity equals
`0.5·s + 0.5·lex` reduced by exactly `0.15` when the input has a citation
and clamped below at `0`, and it always lies in `[0, 1]`. -/
theorem calculate_combined_similarity_spec (seqFn : String → String → ℚ)
    (hseq : ∀ a b, 0 ≤ seqFn a b ∧ seqFn a b ≤ 1) (hasCit : Bool)
    (semantic_score : ℚ) (hs0 : 0 ≤ semantic_score)
    (hs1 : semantic_score ≤ 1) (inputW matchedW : List String) :
    calculate_combined_similarity seqFn hasCit semantic_score inputW matchedW
        (1 / 2) (1 / 2)
      = max 0 (semantic_score * (1 / 2)
          + calculate_asymmetric_lexical_similarity seqFn inputW matchedW
              * (1 / 2)
          - (if hasCit then 15 / 100 else 0))
    ∧ 0 ≤ calculate_combined_similarity seqFn hasCit semantic_score inputW
        matchedW (1 / 2) (1 / 2)
    ∧ calculate_combined_similarity seqFn hasCit semantic_score inputW
        matchedW (1 / 2) (1 / 2) ≤ 1 := by
  have hlex := calculate_asymmetric_lexical_similarity_bounds seqFn hseq
    inputW matchedW
  refine ⟨rfl, le_max_left 0 _, ?_⟩
  unfold calculate_combined_similarity
  refine max_le (by norm_num) ?_
  split
  · linarith [hlex.2]
  · linarith [hlex.2]

/-- C3 witness: semantic score 1 against identical one-word texts with a
citation in the input and the constant-zero sequence ratio: the symmetric
branch gives lexical score `0.3`, and the combined score is
`max 0 (0.5 + 0.15 - 0.15) = 0.5 ≤ 1`. -/
theorem calculate_combined_similarity_spec_witness :
    calculate_combined_similarity (fun _ _ => 0) true 1 ["a"] ["a"]
      (1 / 2) (1 / 2) ≤ 1 :=
  (calculate_combined_similarity_spec (fun _ _ => 0)
    (fun _ _ => by norm_num) true 1 (by norm_num) (by norm_num)
    ["a"] ["a"]).2.2


/-! ## Upload result shape -/

/-- Helper: an append chain starting with a nonempty string is nonempty. -/
theorem append3_length_pos (a b c : String) (h : 0 < a.length) :
    0 < (a ++ b ++ c).length := by
  rw [String.length_append, String.length_append]
  omega

/-- C10: `upload_document` is total over all dependency outcomes — every
input (empty content, embedding failure, indexing failure, indexing
rejection) yields a structured `UploadResult` with a nonempty message, and
every non-success result reports `chunks_created = 0`. -/
theorem upload_document_structured (cs ov ms : ℕ) (providedId : Option String)
    (freshId title : String) (contentWords : List String)
    (embedOutcome : Except String (List (List ℚ)))
    (indexOutcome : Except String Bool) :
    0 < (upload_document cs ov ms providedId freshId title contentWords
        embedOutcome indexOutcome).message.length
    ∧ ((upload_document cs ov ms providedId freshId title contentWords
          embedOutcome indexOutcome).success = true
        ∨ (upload_document cs ov ms providedId freshId title contentWords
            embedOutcome indexOutcome).chunks_created = 0) := by
  by_cases hch : chunk_text cs ov ms contentWords = []
  · simp only [upload_document, hch, if_true]
    exact ⟨by decide, Or.inr trivial⟩
  · cases embedOutcome with
    | error e =>
      simp only [upload_document, hch, if_false]
      exact ⟨by decide, Or.inr trivial⟩
    | ok embeddings =>
      cases indexOutcome with
      | error e =>
        simp only [upload_document, hch, if_false]
        exact ⟨by decide, Or.inr trivial⟩
      | ok b =>
        cases b with
        | false =>
          simp only [upload_document, hch, if_false]
          exact ⟨by decide, Or.inr trivial⟩
        | true =>
          simp only [upload_document, hch, if_false]
          exact ⟨append3_length_pos _ _ _ (by decide), Or.inl trivial⟩

end Plagiarism
